import Mathlib

/-!
Verification of the contract-processing pipeline (`contract.py`).

Strings are modelled as `List Char`.  Python regular-expression operations are
embedded by their operational meaning on the concrete patterns used by the
source (all of which are backtracking-free, so leftmost greedy matching is
maximal-munch).  Whitespace character classes are modelled by their ASCII core.
-/

/-- ASCII core of Python's whitespace class (used by `\s`, `str.strip`). -/
def pyIsSpace (c : Char) : Bool :=
  c == ' ' || c == '\t' || c == '\n' || c == '\r' || c == '\x0b' || c == '\x0c'

/-- The character class `[ \t]` of the horizontal-whitespace regex. -/
def isHT (c : Char) : Bool := c == ' ' || c == '\t'

/-- Lower-casing a string, as Python's `str.lower` on ASCII. -/
def lowerL (l : List Char) : List Char := l.map Char.toLower

/-- `txt.replace("\r\n", "\n")`: left-to-right non-overlapping replacement. -/
def replCRLF : List Char → List Char
  | [] => []
  | [c] => [c]
  | c :: d :: rest =>
    if c == '\r' && d == '\n' then '\n' :: replCRLF rest
    else c :: replCRLF (d :: rest)

/-- `txt.replace("\r", "\n")` (after CRLF replacement, a plain map). -/
def mapCR (l : List Char) : List Char :=
  l.map fun c => if c == '\r' then '\n' else c

/-- `re.sub(r"[ \t]+", " ", txt)`: each maximal run of spaces/tabs becomes one
space.  `inRun` records whether the previous character belonged to a run. -/
def collapseHTAux (inRun : Bool) : List Char → List Char
  | [] => []
  | c :: rest =>
    if isHT c then
      (if inRun then [] else [' ']) ++ collapseHTAux true rest
    else c :: collapseHTAux false rest

def collapseHT (l : List Char) : List Char := collapseHTAux false l

/-- `re.sub(r"\n{3,}", "\n\n", txt)`: each maximal run of `k ≥ 3` newlines
becomes two newlines; shorter runs are kept.  `seen` counts the newlines
already emitted from the current run (runs emit at positions 0 and 1 only). -/
def collapseNLAux (seen : Nat) : List Char → List Char
  | [] => []
  | c :: rest =>
    if c == '\n' then
      (if seen < 2 then ['\n'] else []) ++ collapseNLAux (seen + 1) rest
    else c :: collapseNLAux 0 rest

def collapseNL (l : List Char) : List Char := collapseNLAux 0 l

/-- Case-insensitive literal matcher: if `pat` (given lower-case) is a
case-insensitive head of `l`, return the remainder of `l`. -/
def ciLit : List Char → List Char → Option (List Char)
  | [], l => some l
  | _ :: _, [] => none
  | p :: ps, c :: cs => if c.toLower == p then ciLit ps cs else none

/-- Greedy `X+` for a character class `q`: consume one mandatory character and
then the maximal run, returning the remainder. -/
def chomp1 (q : Char → Bool) : List Char → Option (List Char)
  | [] => none
  | c :: cs => if q c then some (cs.dropWhile q) else none

/-- Matcher for `re` pattern `Page\s+\d+\s+of\s+\d+` (IGNORECASE) at the head
of the list; on success returns the remainder after the (greedy) match.
The character classes of consecutive components are disjoint, so greedy
matching never backtracks and equals maximal munch. -/
def footerMatch (l : List Char) : Option (List Char) :=
  (ciLit ['p', 'a', 'g', 'e'] l).bind fun l1 =>
  (chomp1 pyIsSpace l1).bind fun l2 =>
  (chomp1 Char.isDigit l2).bind fun l3 =>
  (chomp1 pyIsSpace l3).bind fun l4 =>
  (ciLit ['o', 'f'] l4).bind fun l5 =>
  (chomp1 pyIsSpace l5).bind fun l6 =>
  chomp1 Char.isDigit l6

/-- `re.sub(r"Page\s+\d+\s+of\s+\d+", "", txt, flags=IGNORECASE)`: scan left to
right; at a match, delete it and continue after it; otherwise keep the
character.  Fuelled so that the definition is structurally recursive; a match
always consumes at least one character, so fuel `l.length` suffices. -/
def removeFootersF : Nat → List Char → List Char
  | _, [] => []
  | 0, l => l
  | fuel + 1, c :: rest =>
    match footerMatch (c :: rest) with
    | some r => removeFootersF fuel r
    | none => c :: removeFootersF fuel rest

def removeFooters (l : List Char) : List Char := removeFootersF l.length l

/-- Python `str.strip` of trailing whitespace, computed front-to-back. -/
def pyStripRight : List Char → List Char
  | [] => []
  | c :: rest =>
    match pyStripRight rest with
    | [] => if pyIsSpace c then [] else [c]
    | r => c :: r

/-- Python `str.strip()`: remove leading and trailing whitespace. -/
def pyStrip (l : List Char) : List Char := pyStripRight (l.dropWhile pyIsSpace)

/-- `normalize_text` from `contract.py`: unify line endings, collapse
horizontal whitespace, collapse newline runs, delete page footers, strip. -/
def normalize_text (txt : List Char) : List Char :=
  pyStrip (removeFooters (collapseNL (collapseHT (mapCR (replCRLF txt)))))

/-! ## Clause locator (`find_relevant_section`) -/

/-- The `patterns` dictionary lookup of `find_relevant_section`: the anchor
keyword stem of each supported clause type, keyed by the lower-cased type. -/
def stemOf? (clause_type : List Char) : Option (List Char) :=
  if lowerL clause_type = ("termination").toList then some (("termination").toList)
  else if lowerL clause_type = ("confidentiality").toList then some (("confidential").toList)
  else if lowerL clause_type = ("liability").toList then some (("liabilit").toList)
  else none

/-- `stem` is a case-insensitive head of `l`. -/
def ciHeadMatch : List Char → List Char → Bool
  | [], _ => true
  | _ :: _, [] => false
  | s :: ss, c :: cs => c.toLower == s.toLower && ciHeadMatch ss cs

/-- Index of the leftmost case-insensitive occurrence of `stem`, as found by
`re.search` with IGNORECASE. -/
def findCI (stem : List Char) : List Char → Option Nat
  | [] => if ciHeadMatch stem [] then some 0 else none
  | c :: rest =>
    if ciHeadMatch stem (c :: rest) then some 0
    else (findCI stem rest).map (· + 1)

/-- `find_relevant_section` from `contract.py`.  The regex
`(stem[\s\S]{0,1800})` with IGNORECASE matches at the leftmost
case-insensitive occurrence of the stem and its greedy tail takes the
following `min(1800, remaining)` characters; `group(1)` is that span of the
original text.  Without a match (or an unknown clause type) it falls back to
`text[:2000]`. -/
def find_relevant_section (text : List Char) (clause_type : List Char) : List Char :=
  match stemOf? clause_type with
  | some stem =>
    match findCI stem text with
    | some i => (text.drop i).take (stem.length + 1800)
    | none => text.take 2000
  | none => text.take 2000

/-! ## LLM gateway (`call_groq`) -/

/-- The single chat request `call_groq` sends to the backend. -/
structure GroqRequest where
  system_prompt : List Char
  user_prompt : List Char
  temperature : Nat
  max_tokens : Nat
  deriving DecidableEq

/-- Outcome of the underlying `client.chat.completions.create` call: either a
response content or a raised exception (network, auth, rate limit, malformed
response — any failure inside the `try` block). -/
inductive GroqResult where
  | success (content : List Char)
  | failure (err : List Char)
  deriving DecidableEq

/-- `call_groq` from `contract.py`, over an explicit backend: on success the
content is returned stripped; any exception is caught and the empty string is
returned (the `print` log is outside the value-level model). -/
def call_groq (backend : GroqRequest → GroqResult)
    (system_prompt user_prompt : List Char) (max_tokens : Nat) : List Char :=
  match backend ⟨system_prompt, user_prompt, 0, max_tokens⟩ with
  | GroqResult.success content => pyStrip content
  | GroqResult.failure _ => []

/-! ## Clause extraction, summary, per-document record, batch loop -/

def CLAUSE_SYSTEM_PROMPT : List Char :=
  ("You are a legal contract clause extractor. Return ONLY the exact clause text, verbatim, as it appears in the contract. If not found, return an empty string. Do not paraphrase.").toList

/-- The f-string user prompt of `extract_clause`. -/
def clauseUserPrompt (clause_type filtered : List Char) : List Char :=
  ("\nExtract the ").toList ++ clause_type ++
  (" clause verbatim from the text below.\nReturn ONLY the original clause text. No explanation.\n\nText:\n\"\"\"").toList ++
  filtered ++ ("\"\"\"\n").toList

/-- `extract_clause` from `contract.py`. -/
def extract_clause (backend : GroqRequest → GroqResult)
    (full_text clause_type : List Char) : List Char :=
  let filtered := find_relevant_section full_text clause_type
  call_groq backend CLAUSE_SYSTEM_PROMPT (clauseUserPrompt clause_type filtered) 800

def SUMMARY_SYSTEM_PROMPT : List Char :=
  ("You are an expert legal summarizer. Write a 100–150 word summary including: purpose, obligations, risks.").toList

/-- The f-string user prompt of `summarize_contract`. -/
def summaryUserPrompt (short : List Char) : List Char :=
  ("\nWrite a clear 100–150 word summary including purpose, both parties\x27 obligations, and risks.\n\nContract:\n\"\"\"").toList ++
  short ++ ("\"\"\"\n").toList

/-- `summarize_contract` from `contract.py`: truncate to the first 5000
characters, build the prompt, call the gateway with a 400-token ceiling. -/
def summarize_contract (backend : GroqRequest → GroqResult)
    (full_text : List Char) : List Char :=
  let short := full_text.take 5000
  call_groq backend SUMMARY_SYSTEM_PROMPT (summaryUserPrompt short) 400

/-- `"\n\n".join(text_parts)` of `extract_text_from_pdf`, over the page texts
delivered by the extraction backend. -/
def joinPages (pages : List (List Char)) : List Char :=
  List.intercalate (("\n\n").toList) pages

/-- `process_contract` from `contract.py`, over the already-extracted raw text
(`contract_id` is the source file's stem, supplied by the caller).  The record
is the Python dict, modelled as an ordered key/value list. -/
def process_contract (backend : GroqRequest → GroqResult)
    (contract_id raw : List Char) : List (List Char × List Char) :=
  let full_text := normalize_text raw
  let termination := extract_clause backend full_text (("termination").toList)
  let confidentiality := extract_clause backend full_text (("confidentiality").toList)
  let liability := extract_clause backend full_text (("liability").toList)
  let summary := summarize_contract backend full_text
  [(("contract_id").toList, contract_id),
   (("summary").toList, summary),
   (("termination").toList, termination),
   (("confidentiality").toList, confidentiality),
   (("liability").toList, liability)]

/-- A discovered input document: its stem and the outcome of PDF text
extraction (`pdfplumber` either yields the page texts or raises). -/
def PdfDoc : Type := List Char × Except (List Char) (List (List Char))

/-- One iteration of `main`'s loop body for a document: any exception raised
while opening/extracting propagates out of `process_contract`. -/
def process_contract_doc (backend : GroqRequest → GroqResult)
    (doc : PdfDoc) : Except (List Char) (List (List Char × List Char)) :=
  match doc.2 with
  | Except.error e => Except.error e
  | Except.ok pages => Except.ok (process_contract backend doc.1 (joinPages pages))

/-- The `rows` accumulated by `main`'s `for`/`try`/`except` loop over the
sorted document list: a failing document is logged and skipped, the rest are
processed in order. -/
def main_rows (backend : GroqRequest → GroqResult) : List PdfDoc → List (List (List Char × List Char))
  | [] => []
  | d :: rest =>
    match process_contract_doc backend d with
    | Except.ok r => r :: main_rows backend rest
    | Except.error _ => main_rows backend rest

/-! ## Scanner predicates used by the claims -/

/-- `l` contains two adjacent characters of the class `[ \t]`. -/
def hasHTpair : List Char → Bool
  | a :: b :: rest => (isHT a && isHT b) || hasHTpair (b :: rest)
  | _ => false

/-- `l` contains two adjacent space characters (a multi-space run). -/
def hasDoubleSpace : List Char → Bool
  | a :: b :: rest => (a == ' ' && b == ' ') || hasDoubleSpace (b :: rest)
  | _ => false

/-- `l` contains three consecutive newlines. -/
def hasTripleNL : List Char → Bool
  | a :: b :: c :: rest => (a == '\n' && b == '\n' && c == '\n') || hasTripleNL (b :: c :: rest)
  | _ => false

/-- Some position of `l` starts a `Page <n> of <n>` footer match. -/
def hasFooter : List Char → Bool
  | [] => false
  | c :: rest => (footerMatch (c :: rest)).isSome || hasFooter rest

/-- Declarative statement that the stem occurs case-insensitively at index
`i` of `text`. -/
def occursCIAt (stem text : List Char) (i : Nat) : Prop :=
  lowerL ((text.drop i).take stem.length) = lowerL stem

instance (stem text : List Char) (i : Nat) : Decidable (occursCIAt stem text i) := by
  unfold occursCIAt; infer_instance

/-! ## Helper lemmas: character membership -/

theorem mem_mapCR {c : Char} {l : List Char} (h : c ∈ mapCR l) : c ≠ '\r' := by
  rcases List.mem_map.mp h with ⟨a, _, rfl⟩
  by_cases ha : a = '\r' <;> simp [ha]

theorem mem_collapseHTAux {c : Char} :
    ∀ (flag : Bool) (l : List Char), c ∈ collapseHTAux flag l → c ∈ l ∨ c = ' '
  | _, [], h => by simp [collapseHTAux] at h
  | flag, a :: rest, h => by
    by_cases ha : isHT a = true
    · cases flag with
      | true =>
        simp [collapseHTAux, ha] at h
        rcases mem_collapseHTAux true rest h with h1 | h1
        · exact Or.inl (List.mem_cons_of_mem _ h1)
        · exact Or.inr h1
      | false =>
        simp [collapseHTAux, ha] at h
        rcases h with h1 | h1
        · exact Or.inr h1
        · rcases mem_collapseHTAux true rest h1 with h2 | h2
          · exact Or.inl (List.mem_cons_of_mem _ h2)
          · exact Or.inr h2
    · simp [collapseHTAux, ha] at h
      rcases h with h1 | h1
      · exact Or.inl (by simp [h1])
      · rcases mem_collapseHTAux false rest h1 with h2 | h2
        · exact Or.inl (List.mem_cons_of_mem _ h2)
        · exact Or.inr h2

theorem mem_collapseNLAux {c : Char} :
    ∀ (seen : Nat) (l : List Char), c ∈ collapseNLAux seen l → c ∈ l ∨ c = '\n'
  | _, [], h => by simp [collapseNLAux] at h
  | seen, a :: rest, h => by
    by_cases ha : a = '\n'
    · subst ha
      by_cases hs : seen < 2
      · simp [collapseNLAux, hs] at h
        rcases h with h1 | h1
        · exact Or.inr h1
        · rcases mem_collapseNLAux (seen + 1) rest h1 with h2 | h2
          · exact Or.inl (List.mem_cons_of_mem _ h2)
          · exact Or.inr h2
      · simp [collapseNLAux, hs] at h
        rcases mem_collapseNLAux (seen + 1) rest h with h2 | h2
        · exact Or.inl (List.mem_cons_of_mem _ h2)
        · exact Or.inr h2
    · simp [collapseNLAux, ha] at h
      rcases h with h1 | h1
      · exact Or.inl (by simp [h1])
      · rcases mem_collapseNLAux 0 rest h1 with h2 | h2
        · exact Or.inl (List.mem_cons_of_mem _ h2)
        · exact Or.inr h2

theorem mem_dropWhileL {c : Char} {p : Char → Bool} :
    ∀ {l : List Char}, c ∈ l.dropWhile p → c ∈ l
  | [], h => h
  | a :: rest, h => by
    by_cases ha : p a = true
    · simp only [List.dropWhile_cons, ha, if_true] at h
      exact List.mem_cons_of_mem _ (mem_dropWhileL h)
    · simpa [List.dropWhile_cons, ha] using h

theorem mem_pyStripRight {c : Char} :
    ∀ {l : List Char}, c ∈ pyStripRight l → c ∈ l
  | [], h => h
  | a :: rest, h => by
    rw [pyStripRight] at h
    rcases hr : pyStripRight rest with _ | ⟨b, t⟩
    · rw [hr] at h
      by_cases ha : pyIsSpace a = true <;> simp [ha] at h
      · simp [h]
    · rw [hr] at h
      rcases List.mem_cons.mp h with h' | h'
      · simp [h']
      · exact List.mem_cons_of_mem _ (mem_pyStripRight (hr ▸ h'))

theorem mem_pyStrip {c : Char} {l : List Char} (h : c ∈ pyStrip l) : c ∈ l :=
  mem_dropWhileL (mem_pyStripRight h)

/-! ## Helper lemmas: scanner characterizations and closures -/

theorem htpair_cons_iff (a : Char) (t : List Char) :
    hasHTpair (a :: t) = false ↔
      (∀ b, t.head? = some b → (isHT a && isHT b) = false) ∧ hasHTpair t = false := by
  cases t <;> simp [hasHTpair]

theorem tripleNL_cons_iff (a : Char) (t : List Char) :
    hasTripleNL (a :: t) = false ↔
      (∀ b c u, t = b :: c :: u → (a == '\n' && b == '\n' && c == '\n') = false) ∧
      hasTripleNL t = false := by
  cases t with
  | nil => simp [hasTripleNL]
  | cons b u =>
    cases u with
    | nil => simp [hasTripleNL]
    | cons c v =>
      simp [hasTripleNL]

theorem footer_cons_iff (a : Char) (t : List Char) :
    hasFooter (a :: t) = false ↔ footerMatch (a :: t) = none ∧ hasFooter t = false := by
  cases hm : footerMatch (a :: t) <;> simp [hasFooter, hm]

theorem htpair_of_append : ∀ (m b : List Char), hasHTpair (m ++ b) = false → hasHTpair m = false
  | [], _, _ => rfl
  | [_], _, _ => rfl
  | a :: a2 :: t, b, h => by
    have h' : hasHTpair (a :: a2 :: (t ++ b)) = false := h
    simp only [hasHTpair, Bool.or_eq_false_iff] at h' ⊢
    exact ⟨h'.1, htpair_of_append (a2 :: t) b h'.2⟩

theorem tripleNL_of_append :
    ∀ (m b : List Char), hasTripleNL (m ++ b) = false → hasTripleNL m = false
  | [], _, _ => rfl
  | [_], _, _ => rfl
  | [_, _], _, _ => rfl
  | a :: a2 :: a3 :: t, b, h => by
    have h' : hasTripleNL (a :: a2 :: a3 :: (t ++ b)) = false := h
    simp only [hasTripleNL, Bool.or_eq_false_iff] at h' ⊢
    exact ⟨h'.1, tripleNL_of_append (a2 :: a3 :: t) b h'.2⟩

theorem htpair_dropWhile (p : Char → Bool) :
    ∀ (l : List Char), hasHTpair l = false → hasHTpair (l.dropWhile p) = false
  | [], _ => rfl
  | a :: t, h => by
    by_cases hp : p a = true
    · simp only [List.dropWhile_cons, hp, if_true]
      exact htpair_dropWhile p t ((htpair_cons_iff a t).mp h).2
    · simpa [List.dropWhile_cons, hp] using h

theorem tripleNL_dropWhile (p : Char → Bool) :
    ∀ (l : List Char), hasTripleNL l = false → hasTripleNL (l.dropWhile p) = false
  | [], _ => rfl
  | a :: t, h => by
    by_cases hp : p a = true
    · simp only [List.dropWhile_cons, hp, if_true]
      exact tripleNL_dropWhile p t ((tripleNL_cons_iff a t).mp h).2
    · simpa [List.dropWhile_cons, hp] using h

theorem footer_dropWhile (p : Char → Bool) :
    ∀ (l : List Char), hasFooter l = false → hasFooter (l.dropWhile p) = false
  | [], _ => rfl
  | a :: t, h => by
    by_cases hp : p a = true
    · simp only [List.dropWhile_cons, hp, if_true]
      exact footer_dropWhile p t ((footer_cons_iff a t).mp h).2
    · simpa [List.dropWhile_cons, hp] using h

theorem psr_decomp : ∀ (l : List Char), ∃ b, l = pyStripRight l ++ b
  | [] => ⟨[], rfl⟩
  | c :: rest => by
    obtain ⟨b0, hb0⟩ := psr_decomp rest
    cases hr : pyStripRight rest with
    | nil =>
      by_cases hc : pyIsSpace c = true
      · exact ⟨c :: rest, by simp [pyStripRight, hr, hc]⟩
      · exact ⟨rest, by simp [pyStripRight, hr, hc]⟩
    | cons x xs =>
      refine ⟨b0, ?_⟩
      have h1 : pyStripRight (c :: rest) = c :: pyStripRight rest := by
        simp [pyStripRight, hr]
      rw [h1, List.cons_append, ← hb0]

theorem psr_head : ∀ (l : List Char), pyStripRight l = [] ∨ (pyStripRight l).head? = l.head?
  | [] => Or.inl rfl
  | c :: rest => by
    cases hr : pyStripRight rest with
    | nil =>
      by_cases hc : pyIsSpace c = true
      · exact Or.inl (by simp [pyStripRight, hr, hc])
      · exact Or.inr (by simp [pyStripRight, hr, hc])
    | cons x xs =>
      refine Or.inr ?_
      have h1 : pyStripRight (c :: rest) = c :: pyStripRight rest := by
        simp [pyStripRight, hr]
      simp [h1]

theorem psr_last : ∀ (l : List Char) (h : Char),
    (pyStripRight l).getLast? = some h → pyIsSpace h = false
  | [], h => by simp [pyStripRight]
  | c :: rest, h => by
    intro hg
    cases hr : pyStripRight rest with
    | nil =>
      rw [pyStripRight, hr] at hg
      by_cases hc : pyIsSpace c = true
      · simp [hc] at hg
      · simp [hc] at hg
        rw [← hg]
        simpa using hc
    | cons x xs =>
      have h1 : pyStripRight (c :: rest) = c :: pyStripRight rest := by
        simp [pyStripRight, hr]
      rw [h1, hr] at hg
      rw [List.getLast?_cons_cons] at hg
      exact psr_last rest h (hr ▸ hg)

theorem psr_id : ∀ (l : List Char),
    (∀ h, l.getLast? = some h → pyIsSpace h = false) → pyStripRight l = l
  | [], _ => rfl
  | c :: rest, h => by
    cases rest with
    | nil =>
      have hc : pyIsSpace c = false := h c (by simp)
      simp [pyStripRight, hc]
    | cons d t =>
      have hrest : pyStripRight (d :: t) = d :: t := by
        refine psr_id (d :: t) ?_
        intro x hx
        exact h x (by rw [List.getLast?_cons_cons]; exact hx)
      rw [pyStripRight, hrest]

theorem dw_head (p : Char → Bool) :
    ∀ (l : List Char) (h : Char), (l.dropWhile p).head? = some h → p h = false
  | [], h => by simp
  | a :: t, h => by
    by_cases hp : p a = true
    · rw [List.dropWhile_cons, if_pos hp]
      exact dw_head p t h
    · rw [List.dropWhile_cons, if_neg hp]
      intro hh
      simp only [List.head?_cons, Option.some.injEq] at hh
      rw [← hh]
      simpa using hp

theorem dw_id (p : Char → Bool) (l : List Char)
    (h : ∀ c, l.head? = some c → p c = false) : l.dropWhile p = l := by
  cases l with
  | nil => rfl
  | cons a t =>
    have := h a (by simp)
    simp [List.dropWhile_cons, this]

theorem pyStrip_idem (l : List Char) : pyStrip (pyStrip l) = pyStrip l := by
  have h1 : (pyStrip l).dropWhile pyIsSpace = pyStrip l := by
    refine dw_id pyIsSpace _ ?_
    intro c hc
    rcases psr_head (l.dropWhile pyIsSpace) with he | he
    · rw [pyStrip, he] at hc
      simp at hc
    · rw [pyStrip] at hc
      rw [he] at hc
      exact dw_head pyIsSpace l c hc
  have h2 : pyStripRight (pyStrip l) = pyStrip l := by
    refine psr_id _ ?_
    intro c hc
    exact psr_last (l.dropWhile pyIsSpace) c hc
  rw [pyStrip, h1, h2]

theorem pyStrip_head (l : List Char) (c : Char) (h : (pyStrip l).head? = some c) :
    pyIsSpace c = false := by
  rcases psr_head (l.dropWhile pyIsSpace) with he | he
  · rw [pyStrip, he] at h
    simp at h
  · rw [pyStrip, he] at h
    exact dw_head pyIsSpace l c h

/-! ## Identity and output-invariant lemmas for the normalization steps -/

theorem replCRLF_id : ∀ (l : List Char), (∀ c ∈ l, c ≠ '\r') → replCRLF l = l
  | [], _ => rfl
  | [_], _ => rfl
  | c :: d :: rest, h => by
    have hc : (c == '\r') = false := by
      simp only [beq_eq_false_iff_ne, ne_eq]
      exact h c (by simp)
    rw [replCRLF, hc]
    simp only [Bool.false_and, Bool.false_eq_true, if_false]
    rw [replCRLF_id (d :: rest) fun x hx => h x (List.mem_cons_of_mem _ hx)]

theorem mapCR_id : ∀ (l : List Char), (∀ c ∈ l, c ≠ '\r') → mapCR l = l
  | [], _ => rfl
  | a :: t, h => by
    have ha : (a == '\r') = false := by
      simp only [beq_eq_false_iff_ne, ne_eq]
      exact h a (by simp)
    have ht := mapCR_id t fun x hx => h x (List.mem_cons_of_mem _ hx)
    simp only [mapCR, List.map_cons, ha, Bool.false_eq_true, if_false] at *
    rw [ht]

theorem collapseHTAux_no_tab :
    ∀ (flag : Bool) (l : List Char), ∀ c ∈ collapseHTAux flag l, c ≠ '\t'
  | _, [], c, hc => by simp [collapseHTAux] at hc
  | flag, a :: rest, c, hc => by
    by_cases ha : isHT a = true
    · cases flag with
      | true =>
        simp [collapseHTAux, ha] at hc
        exact collapseHTAux_no_tab true rest c hc
      | false =>
        simp [collapseHTAux, ha] at hc
        rcases hc with h1 | h1
        · simp [h1]
        · exact collapseHTAux_no_tab true rest c h1
    · simp [collapseHTAux, ha] at hc
      rcases hc with h1 | h1
      · subst h1
        intro hcontra
        subst hcontra
        simp [isHT] at ha
      · exact collapseHTAux_no_tab false rest c h1

theorem collapseHTAux_head_true :
    ∀ (l : List Char) (c : Char), (collapseHTAux true l).head? = some c → isHT c = false
  | [], c => by simp [collapseHTAux]
  | a :: rest, c => by
    by_cases ha : isHT a = true
    · simp only [collapseHTAux, ha, if_true, if_pos, List.nil_append]
      exact collapseHTAux_head_true rest c
    · simp only [collapseHTAux, ha, Bool.false_eq_true, if_false, List.head?_cons,
        Option.some.injEq]
      intro hh
      rw [← hh]
      simpa using ha

theorem collapseHTAux_pair_free :
    ∀ (flag : Bool) (l : List Char), hasHTpair (collapseHTAux flag l) = false
  | _, [] => rfl
  | flag, a :: rest => by
    by_cases ha : isHT a = true
    · cases flag with
      | true =>
        simp only [collapseHTAux, ha, if_true, if_pos, List.nil_append]
        exact collapseHTAux_pair_free true rest
      | false =>
        simp only [collapseHTAux, ha, if_true, List.singleton_append]
        refine (htpair_cons_iff _ _).mpr ⟨?_, collapseHTAux_pair_free true rest⟩
        intro b hb
        rw [collapseHTAux_head_true rest b hb]
        simp
    · simp only [collapseHTAux, ha, Bool.false_eq_true, if_false]
      refine (htpair_cons_iff _ _).mpr ⟨?_, collapseHTAux_pair_free false rest⟩
      intro b _
      simp only [Bool.and_eq_false_iff]
      exact Or.inl (by simpa using ha)

theorem collapseHTAux_id :
    ∀ (l : List Char), (∀ c ∈ l, c ≠ '\t') → hasHTpair l = false →
      collapseHTAux false l = l ∧
      ((∀ c, l.head? = some c → isHT c = false) → collapseHTAux true l = l)
  | [], _, _ => ⟨rfl, fun _ => rfl⟩
  | a :: rest, htab, hpair => by
    have htab' : ∀ c ∈ rest, c ≠ '\t' := fun x hx => htab x (List.mem_cons_of_mem _ hx)
    have hpair' : hasHTpair rest = false := ((htpair_cons_iff a rest).mp hpair).2
    have hrel : ∀ b, rest.head? = some b → (isHT a && isHT b) = false :=
      ((htpair_cons_iff a rest).mp hpair).1
    have ih := collapseHTAux_id rest htab' hpair'
    constructor
    · by_cases ha : isHT a = true
      · have haspace : a = ' ' := by
          have : a ≠ '\t' := htab a (by simp)
          rcases (by simpa [isHT] using ha : a = ' ' ∨ a = '\t') with h1 | h1
          · exact h1
          · exact absurd h1 this
        simp only [collapseHTAux, ha, if_true, List.singleton_append]
        rw [haspace]
        refine congrArg _ (ih.2 ?_)
        intro b hb
        have := hrel b hb
        rw [ha] at this
        simpa using this
      · simp only [collapseHTAux, ha, Bool.false_eq_true, if_false]
        rw [ih.1]
    · intro hhead
      have ha : isHT a = false := hhead a (by simp)
      simp only [collapseHTAux, ha, Bool.false_eq_true, if_false]
      rw [ih.1]

theorem nl2_stable : ∀ (l : List Char) (s : Nat), 2 ≤ s → collapseNLAux s l = collapseNLAux 2 l
  | [], _, _ => rfl
  | a :: rest, s, hs => by
    by_cases ha : a = '\n'
    · subst ha
      have h1 : ¬ s < 2 := by omega
      have e1 := nl2_stable rest (s + 1) (by omega)
      have e2 := nl2_stable rest 3 (by omega)
      simp [collapseNLAux, h1, e1, e2]
    · simp only [collapseNLAux, beq_eq_false_iff_ne.mpr ha, Bool.false_eq_true, if_false]

theorem nl2_head : ∀ (l : List Char) (c : Char),
    (collapseNLAux 2 l).head? = some c → c ≠ '\n'
  | [], c => by simp [collapseNLAux]
  | a :: rest, c => by
    by_cases ha : a = '\n'
    · subst ha
      intro h
      have he : collapseNLAux 2 ('\n' :: rest) = collapseNLAux 2 rest := by
        have h3 := nl2_stable rest 3 (by omega)
        simp [collapseNLAux, h3]
      rw [he] at h
      exact nl2_head rest c h
    · simp only [collapseNLAux, beq_eq_false_iff_ne.mpr ha, Bool.false_eq_true, if_false,
        List.head?_cons, Option.some.injEq]
      intro h
      rw [← h]
      exact ha

theorem nl_head_low : ∀ (l : List Char) (s : Nat) (c : Char), s < 2 →
    (collapseNLAux s l).head? = some c → c = '\n' ∨ l.head? = some c
  | [], _, _, _ => by simp [collapseNLAux]
  | a :: rest, s, c, hs => by
    by_cases ha : a = '\n'
    · subst ha
      simp only [collapseNLAux, beq_self_eq_true, if_true, hs, List.singleton_append,
        List.head?_cons, Option.some.injEq]
      intro h
      exact Or.inl h.symm
    · simp only [collapseNLAux, beq_eq_false_iff_ne.mpr ha, Bool.false_eq_true, if_false,
        List.head?_cons, Option.some.injEq]
      intro h
      exact Or.inr (by simp [h])

theorem collapseNLAux_triple_free :
    ∀ (l : List Char) (s : Nat), hasTripleNL (collapseNLAux s l) = false
  | [], _ => rfl
  | a :: rest, s => by
    by_cases ha : a = '\n'
    · subst ha
      by_cases hs : s < 2
      · simp only [collapseNLAux, beq_self_eq_true, if_true, hs, List.singleton_append]
        refine (tripleNL_cons_iff _ _).mpr ⟨?_, collapseNLAux_triple_free rest (s + 1)⟩
        intro b d u hX
        cases rest with
        | nil => simp [collapseNLAux] at hX
        | cons c2 r2 =>
          by_cases hc2 : c2 = '\n'
          · subst hc2
            rcases Nat.lt_or_ge (s + 1) 2 with hs1 | hs1
            · have hs0 : s = 0 := by omega
              subst hs0
              have hX2 : collapseNLAux 1 ('\n' :: r2) = '\n' :: collapseNLAux 2 r2 := by
                simp [collapseNLAux]
              rw [hX2] at hX
              obtain ⟨hb, hd⟩ := List.cons.inj hX
              have hdne : d ≠ '\n' := nl2_head r2 d (by rw [hd]; simp)
              simp [beq_eq_false_iff_ne.mpr hdne]
            · have he : collapseNLAux (s + 1) ('\n' :: r2) = collapseNLAux 2 ('\n' :: r2) :=
                nl2_stable _ _ hs1
              rw [he] at hX
              have hbne : b ≠ '\n' := nl2_head ('\n' :: r2) b (by rw [hX]; simp)
              simp [beq_eq_false_iff_ne.mpr hbne]
          · have hX2 : collapseNLAux (s + 1) (c2 :: r2) = c2 :: collapseNLAux 0 r2 := by
              simp [collapseNLAux, beq_eq_false_iff_ne.mpr hc2]
            rw [hX2] at hX
            obtain ⟨hb, hd⟩ := List.cons.inj hX
            subst hb
            simp [beq_eq_false_iff_ne.mpr hc2]
      · simp only [collapseNLAux, beq_self_eq_true, if_true, hs, if_false, List.nil_append]
        exact collapseNLAux_triple_free rest (s + 1)
    · simp only [collapseNLAux, beq_eq_false_iff_ne.mpr ha, Bool.false_eq_true, if_false]
      refine (tripleNL_cons_iff _ _).mpr ⟨?_, collapseNLAux_triple_free rest 0⟩
      intro b d u _
      simp [beq_eq_false_iff_ne.mpr ha]

theorem collapseNLAux_htpair :
    ∀ (l : List Char) (s : Nat), hasHTpair l = false → hasHTpair (collapseNLAux s l) = false
  | [], _, _ => rfl
  | a :: rest, s, h => by
    have ht : hasHTpair rest = false := ((htpair_cons_iff a rest).mp h).2
    have hrel := ((htpair_cons_iff a rest).mp h).1
    by_cases ha : a = '\n'
    · subst ha
      by_cases hs : s < 2
      · simp only [collapseNLAux, beq_self_eq_true, if_true, hs, List.singleton_append]
        refine (htpair_cons_iff _ _).mpr ⟨?_, collapseNLAux_htpair rest (s + 1) ht⟩
        intro b _
        simp [isHT]
      · simp only [collapseNLAux, beq_self_eq_true, if_true, hs, if_false, List.nil_append]
        exact collapseNLAux_htpair rest (s + 1) ht
    · simp only [collapseNLAux, beq_eq_false_iff_ne.mpr ha, Bool.false_eq_true, if_false]
      refine (htpair_cons_iff _ _).mpr ⟨?_, collapseNLAux_htpair rest 0 ht⟩
      intro b hb
      rcases nl_head_low rest 0 b (by omega) hb with hb1 | hb1
      · subst hb1
        simp [isHT]
      · exact hrel b hb1

theorem collapseNLAux_id : ∀ (l : List Char), hasTripleNL l = false →
    collapseNLAux 0 l = l ∧
    ((∀ u, l ≠ '\n' :: '\n' :: u) → collapseNLAux 1 l = l) ∧
    ((∀ c, l.head? = some c → c ≠ '\n') → collapseNLAux 2 l = l)
  | [], _ => ⟨rfl, fun _ => rfl, fun _ => rfl⟩
  | a :: rest, h => by
    have h2 : hasTripleNL rest = false := ((tripleNL_cons_iff a rest).mp h).2
    have h1 := ((tripleNL_cons_iff a rest).mp h).1
    have ih := collapseNLAux_id rest h2
    by_cases ha : a = '\n'
    · subst ha
      refine ⟨?_, ?_, ?_⟩
      · have hrest : collapseNLAux 1 rest = rest := by
          refine ih.2.1 ?_
          intro u hu
          have := h1 '\n' '\n' u hu
          simp at this
        simp [collapseNLAux, hrest]
      · intro hP1
        have hhead : ∀ c, rest.head? = some c → c ≠ '\n' := by
          intro c hc hcn
          subst hcn
          cases rest with
          | nil => simp at hc
          | cons x u =>
            simp at hc
            subst hc
            exact hP1 u rfl
        have hrest : collapseNLAux 2 rest = rest := ih.2.2 hhead
        simp [collapseNLAux, hrest]
      · intro hP2
        exact absurd rfl (hP2 '\n' (by simp))
    · have hb : (a == '\n') = false := beq_eq_false_iff_ne.mpr ha
      refine ⟨?_, fun _ => ?_, fun _ => ?_⟩ <;>
        simp [collapseNLAux, hb, ih.1]

theorem removeFootersF_id : ∀ (fuel : Nat) (l : List Char), hasFooter l = false →
    removeFootersF fuel l = l
  | fuel, [], _ => by cases fuel <;> rfl
  | 0, _ :: _, _ => rfl
  | fuel + 1, c :: rest, h => by
    have hm : footerMatch (c :: rest) = none := ((footer_cons_iff c rest).mp h).1
    have ht : hasFooter rest = false := ((footer_cons_iff c rest).mp h).2
    simp only [removeFootersF, hm]
    rw [removeFootersF_id fuel rest ht]

/-! ## Extendability of the footer matcher, and closure of `hasFooter` -/

theorem ciLit_append : ∀ (p m b r : List Char), ciLit p m = some r → ciLit p (m ++ b) = some (r ++ b)
  | [], m, b, r => by
    simp only [ciLit, Option.some.injEq]
    intro h
    subst h
    rfl
  | _ :: _, [], b, r => by simp [ciLit]
  | p :: ps, c :: cs, b, r => by
    by_cases hc : (c.toLower == p) = true
    · simp only [ciLit, hc, if_true, List.cons_append]
      exact ciLit_append ps cs b r
    · simp [ciLit, hc]

theorem dropWhile_append_ne : ∀ (q : Char → Bool) (cs b : List Char), cs.dropWhile q ≠ [] →
    (cs ++ b).dropWhile q = cs.dropWhile q ++ b
  | _, [], _, h => absurd rfl h
  | q, c :: cs, b, h => by
    by_cases hq : q c = true
    · rw [List.dropWhile_cons, if_pos hq] at h
      simp only [List.cons_append, List.dropWhile_cons, hq, if_true]
      exact dropWhile_append_ne q cs b h
    · have hq2 : q c = false := by simpa using hq
      simp only [List.cons_append, List.dropWhile_cons, hq2, Bool.false_eq_true, if_false]

theorem chomp1_append (q : Char → Bool) (m b r : List Char) (h : chomp1 q m = some r)
    (hne : r ≠ []) : chomp1 q (m ++ b) = some (r ++ b) := by
  cases m with
  | nil => simp [chomp1] at h
  | cons c cs =>
    by_cases hq : q c = true
    · rw [chomp1, if_pos hq] at h
      injection h with h
      subst h
      rw [List.cons_append, chomp1, if_pos hq, dropWhile_append_ne q cs b hne]
    · rw [chomp1, if_neg hq] at h
      cases h

theorem chomp1_some_append (q : Char → Bool) (m b r : List Char) (h : chomp1 q m = some r) :
    ∃ r2, chomp1 q (m ++ b) = some r2 := by
  cases m with
  | nil => simp [chomp1] at h
  | cons c cs =>
    by_cases hq : q c = true
    · exact ⟨(cs ++ b).dropWhile q, by rw [List.cons_append, chomp1, if_pos hq]⟩
    · rw [chomp1, if_neg hq] at h
      cases h

theorem chomp1_arg_ne (q : Char → Bool) (l r : List Char) (h : chomp1 q l = some r) : l ≠ [] := by
  intro he
  subst he
  simp [chomp1] at h

theorem ciLit_arg_ne (x : Char) (xs l r : List Char) (h : ciLit (x :: xs) l = some r) :
    l ≠ [] := by
  intro he
  subst he
  simp [ciLit] at h

theorem footerMatch_append (m b r : List Char) (h : footerMatch m = some r) :
    ∃ r2, footerMatch (m ++ b) = some r2 := by
  rw [footerMatch] at h
  rcases e1 : ciLit ['p', 'a', 'g', 'e'] m with _ | l1 <;> rw [e1] at h
  · simp at h
  simp only [Option.some_bind] at h
  rcases e2 : chomp1 pyIsSpace l1 with _ | l2 <;> rw [e2] at h
  · simp at h
  simp only [Option.some_bind] at h
  rcases e3 : chomp1 Char.isDigit l2 with _ | l3 <;> rw [e3] at h
  · simp at h
  simp only [Option.some_bind] at h
  rcases e4 : chomp1 pyIsSpace l3 with _ | l4 <;> rw [e4] at h
  · simp at h
  simp only [Option.some_bind] at h
  rcases e5 : ciLit ['o', 'f'] l4 with _ | l5 <;> rw [e5] at h
  · simp at h
  simp only [Option.some_bind] at h
  rcases e6 : chomp1 pyIsSpace l5 with _ | l6 <;> rw [e6] at h
  · simp at h
  simp only [Option.some_bind] at h
  have f1 : ciLit ['p', 'a', 'g', 'e'] (m ++ b) = some (l1 ++ b) := ciLit_append _ m b l1 e1
  have f2 : chomp1 pyIsSpace (l1 ++ b) = some (l2 ++ b) :=
    chomp1_append _ l1 b l2 e2 (chomp1_arg_ne _ l2 l3 e3)
  have f3 : chomp1 Char.isDigit (l2 ++ b) = some (l3 ++ b) :=
    chomp1_append _ l2 b l3 e3 (chomp1_arg_ne _ l3 l4 e4)
  have f4 : chomp1 pyIsSpace (l3 ++ b) = some (l4 ++ b) :=
    chomp1_append _ l3 b l4 e4 (ciLit_arg_ne 'o' ['f'] l4 l5 e5)
  have f5 : ciLit ['o', 'f'] (l4 ++ b) = some (l5 ++ b) := ciLit_append _ l4 b l5 e5
  have f6 : chomp1 pyIsSpace (l5 ++ b) = some (l6 ++ b) :=
    chomp1_append _ l5 b l6 e6 (chomp1_arg_ne _ l6 r h)
  obtain ⟨r2, f7⟩ := chomp1_some_append Char.isDigit l6 b r h
  refine ⟨r2, ?_⟩
  rw [footerMatch, f1]
  simp only [Option.some_bind]
  rw [f2]
  simp only [Option.some_bind]
  rw [f3]
  simp only [Option.some_bind]
  rw [f4]
  simp only [Option.some_bind]
  rw [f5]
  simp only [Option.some_bind]
  rw [f6]
  simp only [Option.some_bind]
  exact f7

theorem hasFooter_of_append : ∀ (m b : List Char), hasFooter (m ++ b) = false →
    hasFooter m = false
  | [], _, _ => rfl
  | a :: t, b, h => by
    have h' : hasFooter (a :: (t ++ b)) = false := by
      rw [← List.cons_append]
      exact h
    have hm : footerMatch (a :: (t ++ b)) = none := ((footer_cons_iff _ _).mp h').1
    have ht : hasFooter (t ++ b) = false := ((footer_cons_iff _ _).mp h').2
    refine (footer_cons_iff a t).mpr ⟨?_, hasFooter_of_append t b ht⟩
    rcases hq : footerMatch (a :: t) with _ | r
    · rfl
    · obtain ⟨r2, hr2⟩ := footerMatch_append (a :: t) b r hq
      rw [List.cons_append] at hr2
      rw [hr2] at hm
      cases hm

theorem hasFooter_pyStrip (l : List Char) (h : hasFooter l = false) :
    hasFooter (pyStrip l) = false := by
  obtain ⟨b, hb⟩ := psr_decomp (l.dropWhile pyIsSpace)
  have hd : hasFooter (l.dropWhile pyIsSpace) = false := footer_dropWhile pyIsSpace l h
  rw [hb] at hd
  exact hasFooter_of_append _ b hd

theorem htpair_pyStrip (l : List Char) (h : hasHTpair l = false) :
    hasHTpair (pyStrip l) = false := by
  obtain ⟨b, hb⟩ := psr_decomp (l.dropWhile pyIsSpace)
  have hd : hasHTpair (l.dropWhile pyIsSpace) = false := htpair_dropWhile pyIsSpace l h
  rw [hb] at hd
  exact htpair_of_append _ b hd

theorem tripleNL_pyStrip (l : List Char) (h : hasTripleNL l = false) :
    hasTripleNL (pyStrip l) = false := by
  obtain ⟨b, hb⟩ := psr_decomp (l.dropWhile pyIsSpace)
  have hd : hasTripleNL (l.dropWhile pyIsSpace) = false := tripleNL_dropWhile pyIsSpace l h
  rw [hb] at hd
  exact tripleNL_of_append _ b hd

theorem htpair_eq_ds : ∀ (l : List Char), (∀ c ∈ l, c ≠ '\t') → hasHTpair l = hasDoubleSpace l
  | [], _ => rfl
  | [_], _ => rfl
  | a :: b :: t, h => by
    have ha : a ≠ '\t' := h a (by simp)
    have hb2 : b ≠ '\t' := h b (by simp)
    have hiso : ∀ (c : Char), c ≠ '\t' → isHT c = (c == ' ') := by
      intro c hc
      simp [isHT, beq_eq_false_iff_ne.mpr hc]
    simp only [hasHTpair, hasDoubleSpace, hiso a ha, hiso b hb2]
    rw [htpair_eq_ds (b :: t) fun x hx => h x (List.mem_cons_of_mem _ hx)]

theorem collapseNL_no_tab (l : List Char) (h : ∀ c ∈ l, c ≠ '\t') :
    ∀ c ∈ collapseNL l, c ≠ '\t' := by
  intro c hc
  rcases mem_collapseNLAux 0 l hc with h1 | h1
  · exact h c h1
  · subst h1
    decide

theorem collapseNL_no_cr (l : List Char) (h : ∀ c ∈ l, c ≠ '\r') :
    ∀ c ∈ collapseNL l, c ≠ '\r' := by
  intro c hc
  rcases mem_collapseNLAux 0 l hc with h1 | h1
  · exact h c h1
  · subst h1
    decide

theorem collapseHT_no_cr (l : List Char) (h : ∀ c ∈ l, c ≠ '\r') :
    ∀ c ∈ collapseHT l, c ≠ '\r' := by
  intro c hc
  rcases mem_collapseHTAux false l hc with h1 | h1
  · exact h c h1
  · subst h1
    decide

/-! ## Claim C1: idempotence of normalization -/

/-- C1 counterexample: on `"a\n\nPage 1 of 2\n\nb"` the footer removal (which
runs after newline collapsing) leaves a four-newline run, so a second
normalization differs from the first. -/
theorem normalize_text_not_idem :
    normalize_text (normalize_text (("a\n\nPage 1 of 2\n\nb").toList)) ≠
      normalize_text (("a\n\nPage 1 of 2\n\nb").toList) := by decide

/-- C1 (corrected): normalization is idempotent for every input whose text
after line-ending unification and whitespace/newline collapsing contains no
occurrence of the `Page <n> of <n>` footer pattern, i.e. whenever the
footer-removal step removes nothing. -/
theorem normalize_text_idem_of_no_footer (x : List Char)
    (h : hasFooter (collapseNL (collapseHT (mapCR (replCRLF x)))) = false) :
    normalize_text (normalize_text x) = normalize_text x := by
  have hrem : removeFooters (collapseNL (collapseHT (mapCR (replCRLF x)))) =
      collapseNL (collapseHT (mapCR (replCRLF x))) := removeFootersF_id _ _ h
  have hnx : normalize_text x = pyStrip (collapseNL (collapseHT (mapCR (replCRLF x)))) := by
    rw [normalize_text, hrem]
  have hQp : hasHTpair (collapseNL (collapseHT (mapCR (replCRLF x)))) = false :=
    collapseNLAux_htpair _ 0 (collapseHTAux_pair_free false _)
  have hQt : ∀ c ∈ collapseNL (collapseHT (mapCR (replCRLF x))), c ≠ '\t' :=
    collapseNL_no_tab _ (collapseHTAux_no_tab false _)
  have hN : hasTripleNL (collapseNL (collapseHT (mapCR (replCRLF x)))) = false :=
    collapseNLAux_triple_free _ 0
  have hCR : ∀ c ∈ collapseNL (collapseHT (mapCR (replCRLF x))), c ≠ '\r' :=
    collapseNL_no_cr _ (collapseHT_no_cr _ fun c hc => mem_mapCR hc)
  have hCRz : ∀ c ∈ pyStrip (collapseNL (collapseHT (mapCR (replCRLF x)))), c ≠ '\r' :=
    fun c hc => hCR c (mem_pyStrip hc)
  have hTz : ∀ c ∈ pyStrip (collapseNL (collapseHT (mapCR (replCRLF x)))), c ≠ '\t' :=
    fun c hc => hQt c (mem_pyStrip hc)
  have hQz : hasHTpair (pyStrip (collapseNL (collapseHT (mapCR (replCRLF x))))) = false :=
    htpair_pyStrip _ hQp
  have hNz : hasTripleNL (pyStrip (collapseNL (collapseHT (mapCR (replCRLF x))))) = false :=
    tripleNL_pyStrip _ hN
  have hFz : hasFooter (pyStrip (collapseNL (collapseHT (mapCR (replCRLF x))))) = false :=
    hasFooter_pyStrip _ h
  have e1 := replCRLF_id _ hCRz
  have e2 := mapCR_id _ hCRz
  have e3 : collapseHT (pyStrip (collapseNL (collapseHT (mapCR (replCRLF x))))) =
      pyStrip (collapseNL (collapseHT (mapCR (replCRLF x)))) :=
    (collapseHTAux_id _ hTz hQz).1
  have e4 : collapseNL (pyStrip (collapseNL (collapseHT (mapCR (replCRLF x))))) =
      pyStrip (collapseNL (collapseHT (mapCR (replCRLF x)))) :=
    (collapseNLAux_id _ hNz).1
  have e5 : removeFooters (pyStrip (collapseNL (collapseHT (mapCR (replCRLF x))))) =
      pyStrip (collapseNL (collapseHT (mapCR (replCRLF x)))) :=
    removeFootersF_id _ _ hFz
  have e6 := pyStrip_idem (collapseNL (collapseHT (mapCR (replCRLF x))))
  rw [hnx, normalize_text, e1, e2, e3, e4, e5, e6]

/-- C1 witness: a concrete footer-free input on which idempotence holds. -/
theorem normalize_text_idem_of_no_footer_witness :
    hasFooter (collapseNL (collapseHT (mapCR (replCRLF ((" hello \t world\r\n\n\n\nok  ").toList))))) = false ∧
    normalize_text (normalize_text ((" hello \t world\r\n\n\n\nok  ").toList)) =
      normalize_text ((" hello \t world\r\n\n\n\nok  ").toList) :=
  ⟨by decide, normalize_text_idem_of_no_footer _ (by decide)⟩

/-! ## Claim C7: normalization equals trimming on already-clean text -/

/-- C7 counterexample: `"a\tb"` contains no multi-space run and no triple
newline, yet `normalize_text` rewrites the tab to a space while `strip`
keeps it. -/
theorem normalize_text_ne_strip :
    hasTripleNL (("a\tb").toList) = false ∧ hasDoubleSpace (("a\tb").toList) = false ∧
    normalize_text (("a\tb").toList) ≠ pyStrip (("a\tb").toList) := by decide

/-- C7 (corrected): for every input with no carriage return, no tab, no two
adjacent spaces, no three consecutive newlines and no `Page <n> of <n>`
footer occurrence, `normalize_text` coincides with Python `strip`. -/
theorem normalize_text_eq_strip_of_clean (x : List Char)
    (hcr : ∀ c ∈ x, c ≠ '\r') (htab : ∀ c ∈ x, c ≠ '\t')
    (hds : hasDoubleSpace x = false) (hnl : hasTripleNL x = false)
    (hf : hasFooter x = false) :
    normalize_text x = pyStrip x := by
  have hht : hasHTpair x = false := (htpair_eq_ds x htab).trans hds
  have e1 := replCRLF_id x hcr
  have e2 := mapCR_id x hcr
  have e3 : collapseHT x = x := (collapseHTAux_id x htab hht).1
  have e4 : collapseNL x = x := (collapseNLAux_id x hnl).1
  have e5 : removeFooters x = x := removeFootersF_id _ _ hf
  rw [normalize_text, e1, e2, e3, e4, e5]

/-- C7 witness: a concrete clean input on which normalization is exactly
trimming. -/
theorem normalize_text_eq_strip_of_clean_witness :
    normalize_text ((" hello\nworld ").toList) = pyStrip ((" hello\nworld ").toList) :=
  normalize_text_eq_strip_of_clean _ (by decide) (by decide) (by decide) (by decide) (by decide)

/-! ## Correctness of the leftmost case-insensitive search -/

theorem ciHeadMatch_iff : ∀ (stem l : List Char),
    ciHeadMatch stem l = true ↔ lowerL (l.take stem.length) = lowerL stem
  | [], l => by simp [ciHeadMatch, lowerL]
  | s :: ss, [] => by simp [ciHeadMatch, lowerL]
  | s :: ss, c :: cs => by
    have ih := ciHeadMatch_iff ss cs
    simp only [ciHeadMatch, List.length_cons, List.take_succ_cons, lowerL, List.map_cons,
      Bool.and_eq_true, beq_iff_eq, List.cons.injEq] at ih ⊢
    tauto

theorem occursCIAt_zero (stem : List Char) (text : List Char) :
    occursCIAt stem text 0 ↔ ciHeadMatch stem text = true := by
  rw [occursCIAt, List.drop_zero, ciHeadMatch_iff]

theorem occursCIAt_succ (stem : List Char) (c : Char) (rest : List Char) (j : Nat) :
    occursCIAt stem (c :: rest) (j + 1) ↔ occursCIAt stem rest j := by
  rw [occursCIAt, occursCIAt, List.drop_succ_cons]

theorem findCI_none_correct (stem : List Char) :
    ∀ (text : List Char), findCI stem text = none → ∀ i, ¬ occursCIAt stem text i
  | [], h, i => by
    rw [findCI] at h
    by_cases hm : ciHeadMatch stem [] = true
    · rw [if_pos hm] at h
      cases h
    · intro hc
      rw [occursCIAt] at hc
      simp only [List.drop_nil, List.take_nil] at hc
      have : ciHeadMatch stem [] = true := by
        rw [ciHeadMatch_iff]
        simpa using hc
      exact hm this
  | c :: rest, h, i => by
    rw [findCI] at h
    by_cases hm : ciHeadMatch stem (c :: rest) = true
    · rw [if_pos hm] at h
      cases h
    · rw [if_neg hm] at h
      have hrest : findCI stem rest = none := by
        rcases hr : findCI stem rest with _ | k
        · rfl
        · rw [hr] at h
          cases h
      cases i with
      | zero =>
        intro hc
        exact hm ((occursCIAt_zero stem (c :: rest)).mp hc)
      | succ j =>
        intro hc
        exact findCI_none_correct stem rest hrest j ((occursCIAt_succ stem c rest j).mp hc)

theorem findCI_some_correct (stem : List Char) :
    ∀ (text : List Char) (i : Nat), findCI stem text = some i →
      occursCIAt stem text i ∧ ∀ j, j < i → ¬ occursCIAt stem text j
  | [], i, h => by
    rw [findCI] at h
    by_cases hm : ciHeadMatch stem [] = true
    · rw [if_pos hm] at h
      injection h with h
      subst h
      refine ⟨(occursCIAt_zero stem []).mpr hm, ?_⟩
      intro j hj
      omega
    · rw [if_neg hm] at h
      cases h
  | c :: rest, i, h => by
    rw [findCI] at h
    by_cases hm : ciHeadMatch stem (c :: rest) = true
    · rw [if_pos hm] at h
      injection h with h
      subst h
      refine ⟨(occursCIAt_zero stem (c :: rest)).mpr hm, ?_⟩
      intro j hj
      omega
    · rw [if_neg hm] at h
      rcases hr : findCI stem rest with _ | k
      · rw [hr] at h
        cases h
      · rw [hr] at h
        obtain rfl : k + 1 = i := by simpa using h
        have ih := findCI_some_correct stem rest k hr
        refine ⟨(occursCIAt_succ stem c rest k).mpr ih.1, ?_⟩
        intro j hj
        cases j with
        | zero =>
          intro hc
          exact hm ((occursCIAt_zero stem (c :: rest)).mp hc)
        | succ j2 =>
          intro hc
          exact ih.2 j2 (by omega) ((occursCIAt_succ stem c rest j2).mp hc)

theorem stemOf?_short (ct stem : List Char) (h : stemOf? ct = some stem) :
    stem.length ≤ 12 := by
  rw [stemOf?] at h
  split at h
  · injection h with h
    rw [← h]
    decide
  · split at h
    · injection h with h
      rw [← h]
      decide
    · split at h
      · injection h with h
        rw [← h]
        decide
      · cases h

theorem stemOf?_congr (a b : List Char) (h : lowerL a = lowerL b) : stemOf? a = stemOf? b := by
  rw [stemOf?, stemOf?, h]

/-! ## Claim C2: locator behaviour on the supported clause types -/

/-- C2 (confirmed): for each supported clause type and its anchor stem, if the
stem occurs case-insensitively in the text then `find_relevant_section`
returns the span of the original text starting at the first such occurrence
and extending over the stem plus at most 1800 following characters; if the
stem does not occur, it returns the first 2000 characters. -/
theorem find_relevant_section_spec (text clause_type stem : List Char)
    (hct : (clause_type, stem) ∈
      [((("termination").toList), (("termination").toList)),
       ((("confidentiality").toList), (("confidential").toList)),
       ((("liability").toList), (("liabilit").toList))]) :
    ((∀ i, ¬ occursCIAt stem text i) → find_relevant_section text clause_type = text.take 2000) ∧
    (∀ i, occursCIAt stem text i → (∀ j, j < i → ¬ occursCIAt stem text j) →
      find_relevant_section text clause_type = (text.drop i).take (stem.length + 1800)) := by
  have hstem : stemOf? clause_type = some stem := by
    simp only [List.mem_cons, List.not_mem_nil, or_false, Prod.mk.injEq] at hct
    rcases hct with ⟨h1, h2⟩ | ⟨h1, h2⟩ | ⟨h1, h2⟩ <;> subst h1 <;> subst h2 <;> decide
  constructor
  · intro hno
    rcases hf : findCI stem text with _ | i
    · simp only [find_relevant_section, hstem, hf]
    · exact absurd (findCI_some_correct stem text i hf).1 (hno i)
  · intro i hocc hmin
    rcases hf : findCI stem text with _ | k
    · exact absurd hocc (findCI_none_correct stem text hf i)
    · have hk := findCI_some_correct stem text k hf
      have hik : k = i := by
        rcases Nat.lt_trichotomy k i with h1 | h1 | h1
        · exact absurd hk.1 (hmin k h1)
        · exact h1
        · exact absurd hocc (hk.2 i h1)
      subst hik
      simp only [find_relevant_section, hstem, hf]

/-- C2 witness: a text whose first (and only) occurrence of "termination" is
at index 3, case-insensitively. -/
theorem find_relevant_section_spec_witness :
    occursCIAt (("termination").toList) (("xx Termination notice.").toList) 3 ∧
    find_relevant_section (("xx Termination notice.").toList) (("termination").toList) =
      (("Termination notice.").toList) := by
  refine ⟨by decide, ?_⟩
  have h := (find_relevant_section_spec (("xx Termination notice.").toList)
    (("termination").toList) (("termination").toList) (by simp)).2 3 (by decide) (by decide)
  rw [h]
  decide

/-! ## Claim C5: length bounds of the locator window -/

/-- C5 (confirmed): the locator output never exceeds 2000 characters, and when
the anchor stem of the looked-up clause type occurs in the text the output is
at most 1800 plus the stem length. -/
theorem find_relevant_section_len (text clause_type : List Char) :
    (find_relevant_section text clause_type).length ≤ 2000 ∧
    (∀ stem i, stemOf? clause_type = some stem → occursCIAt stem text i →
      (find_relevant_section text clause_type).length ≤ 1800 + stem.length) := by
  constructor
  · rcases hs : stemOf? clause_type with _ | stem
    · simp only [find_relevant_section, hs]
      rw [List.length_take]
      omega
    · rcases hf : findCI stem text with _ | i
      · simp only [find_relevant_section, hs, hf]
        rw [List.length_take]
        omega
      · simp only [find_relevant_section, hs, hf]
        rw [List.length_take]
        have := stemOf?_short clause_type stem hs
        omega
  · intro stem i hs hocc
    rcases hf : findCI stem text with _ | k
    · exact absurd hocc (findCI_none_correct stem text hf i)
    · simp only [find_relevant_section, hs, hf]
      rw [List.length_take]
      omega

/-- C5 witness: on a text containing the liability stem, the window length is
within 1800 plus the stem length. -/
theorem find_relevant_section_len_witness :
    (find_relevant_section (("liability cap").toList) (("liability").toList)).length ≤
      1800 + (("liabilit").toList).length :=
  (find_relevant_section_len (("liability cap").toList) (("liability").toList)).2
    (("liabilit").toList) 0 (by decide) (by decide)

/-! ## Claim C9: the locator output is a contiguous window of the input -/

/-- C9 (confirmed): for every text and clause type, the locator returns a
contiguous substring of the text (a span at an anchor match or a text
prefix). -/
theorem find_relevant_section_window (text clause_type : List Char) :
    ∃ pre post, pre ++ find_relevant_section text clause_type ++ post = text := by
  have key : ∀ i n : Nat, ∃ pre post, pre ++ (text.drop i).take n ++ post = text := by
    intro i n
    refine ⟨text.take i, (text.drop i).drop n, ?_⟩
    rw [List.append_assoc, List.take_append_drop n (text.drop i), List.take_append_drop i text]
  rcases hs : stemOf? clause_type with _ | stem
  · simp only [find_relevant_section, hs]
    have := key 0 2000
    simpa using this
  · rcases hf : findCI stem text with _ | i
    · simp only [find_relevant_section, hs, hf]
      have := key 0 2000
      simpa using this
    · simp only [find_relevant_section, hs, hf]
      exact key i (stem.length + 1800)

/-! ## Claim C10: unsupported clause types, and case-insensitive lookup -/

/-- C10 (confirmed): a clause type whose lower-casing is none of the three
supported keys makes the locator return exactly the first 2000 characters
without any anchor search, and two clause types that agree after lower-casing
produce identical locator output. -/
theorem find_relevant_section_unknown (text clause_type other : List Char) :
    ((lowerL clause_type ≠ ("termination").toList ∧
      lowerL clause_type ≠ ("confidentiality").toList ∧
      lowerL clause_type ≠ ("liability").toList) →
      find_relevant_section text clause_type = text.take 2000) ∧
    (lowerL clause_type = lowerL other →
      find_relevant_section text clause_type = find_relevant_section text other) := by
  constructor
  · rintro ⟨h1, h2, h3⟩
    have hs : stemOf? clause_type = none := by
      rw [stemOf?, if_neg h1, if_neg h2, if_neg h3]
    simp only [find_relevant_section, hs]
  · intro h
    have hc := stemOf?_congr clause_type other h
    simp only [find_relevant_section, hc]

/-- C10 witness: an unsupported type falls back to the 2000-character prefix,
and an upper-cased supported type behaves as its lower-cased form. -/
theorem find_relevant_section_unknown_witness :
    find_relevant_section (("some text").toList) (("indemnity").toList) =
      (("some text").toList).take 2000 ∧
    find_relevant_section (("some Termination x").toList) (("TERMINATION").toList) =
      find_relevant_section (("some Termination x").toList) (("termination").toList) := by
  constructor
  · exact (find_relevant_section_unknown (("some text").toList) (("indemnity").toList) []).1
      (by refine ⟨?_, ?_, ?_⟩ <;> decide)
  · exact (find_relevant_section_unknown (("some Termination x").toList)
      (("TERMINATION").toList) (("termination").toList)).2 (by decide)

/-! ## Claim C3: fail-soft gateway -/

/-- C3 (confirmed): when the underlying call raises, `call_groq` returns the
empty string instead of propagating the failure; on success it returns the
content with leading and trailing whitespace stripped. -/
theorem call_groq_fail_soft (backend : GroqRequest → GroqResult)
    (sys usr : List Char) (mt : Nat) :
    (∀ e, backend ⟨sys, usr, 0, mt⟩ = GroqResult.failure e →
      call_groq backend sys usr mt = []) ∧
    (∀ content, backend ⟨sys, usr, 0, mt⟩ = GroqResult.success content →
      call_groq backend sys usr mt = pyStrip content) := by
  constructor
  · intro e he
    simp only [call_groq, he]
  · intro content hc
    simp only [call_groq, hc]

/-- C3 witness: a failing backend yields the empty string; a succeeding
backend yields the stripped content. -/
theorem call_groq_fail_soft_witness :
    call_groq (fun _ => GroqResult.failure (("boom").toList)) [] [] 5 = [] ∧
    call_groq (fun _ => GroqResult.success ((" ok ").toList)) [] [] 5 = (("ok").toList) := by
  constructor
  · exact (call_groq_fail_soft (fun _ => GroqResult.failure (("boom").toList)) [] [] 5).1
      (("boom").toList) rfl
  · have h := (call_groq_fail_soft (fun _ => GroqResult.success ((" ok ").toList)) [] [] 5).2
      ((" ok ").toList) rfl
    rw [h]
    decide

/-! ## Claim C4: per-document failure isolation in the batch loop -/

/-- C4 (confirmed): the batch loop keeps exactly one record per successfully
processed document, in the original order, skips failing documents entirely,
and its output is never longer than the input list. -/
theorem main_rows_spec (backend : GroqRequest → GroqResult) (docs : List PdfDoc) :
    main_rows backend docs =
      docs.filterMap (fun d => (process_contract_doc backend d).toOption) ∧
    (main_rows backend docs).length ≤ docs.length := by
  induction docs with
  | nil => exact ⟨rfl, by simp [main_rows]⟩
  | cons d rest ih =>
    rcases hp : process_contract_doc backend d with e | r
    · constructor
      · simp [main_rows, hp, Except.toOption, ih.1]
      · simp only [main_rows, hp, List.length_cons]
        exact le_trans ih.2 (Nat.le_succ _)
    · constructor
      · simp [main_rows, hp, Except.toOption, ih.1]
      · simp only [main_rows, hp, List.length_cons]
        exact Nat.succ_le_succ ih.2

/-! ## Claim C6: records under a gateway that always fails -/

/-- C6 (confirmed): if every backend call fails, each processed record is the
five-field record, in fixed order, with `contract_id` present and the empty
string (not null, not an error) for summary and all three clauses; a batch of
readable documents still yields one record per document. -/
theorem process_contract_all_fail (backend : GroqRequest → GroqResult)
    (hfail : ∀ req, ∃ e, backend req = GroqResult.failure e) :
    (∀ contract_id raw, process_contract backend contract_id raw =
      [(("contract_id").toList, contract_id), (("summary").toList, []),
       (("termination").toList, []), (("confidentiality").toList, []),
       (("liability").toList, [])]) ∧
    (∀ docs : List PdfDoc, (∀ d ∈ docs, (process_contract_doc backend d).isOk = true) →
      (main_rows backend docs).length = docs.length) := by
  have hcg : ∀ sys usr mt, call_groq backend sys usr mt = [] := by
    intro sys usr mt
    obtain ⟨e, he⟩ := hfail ⟨sys, usr, 0, mt⟩
    simp only [call_groq, he]
  constructor
  · intro contract_id raw
    simp [process_contract, extract_clause, summarize_contract, hcg]
  · intro docs hok
    induction docs with
    | nil => rfl
    | cons d rest ih =>
      rcases hp : process_contract_doc backend d with e | r
      · have := hok d (by simp)
        rw [hp] at this
        simp [Except.isOk, Except.toBool] at this
      · simp only [main_rows, hp, List.length_cons]
        rw [ih fun x hx => hok x (List.mem_cons_of_mem _ hx)]

/-- C6 witness: the record of a concrete document under an always-failing
backend. -/
theorem process_contract_all_fail_witness :
    process_contract (fun _ => GroqResult.failure []) (("c1").toList) (("hello world").toList) =
      [(("contract_id").toList, ("c1").toList), (("summary").toList, []),
       (("termination").toList, []), (("confidentiality").toList, []),
       (("liability").toList, [])] :=
  (process_contract_all_fail (fun _ => GroqResult.failure []) (fun _ => ⟨[], rfl⟩)).1 _ _

/-! ## Claim C8: summarizer truncation, token ceiling and pass-through -/

/-- C8 (confirmed): the summarizer builds its prompt from exactly the first
5000 characters of the input, invokes the gateway with a 400-token output
ceiling, and returns the gateway result unmodified; in particular its result
depends only on the first 5000 characters. -/
theorem summarize_contract_spec (backend : GroqRequest → GroqResult) (full_text : List Char) :
    summarize_contract backend full_text =
      call_groq backend SUMMARY_SYSTEM_PROMPT (summaryUserPrompt (full_text.take 5000)) 400 ∧
    (∀ other : List Char, full_text.take 5000 = other.take 5000 →
      summarize_contract backend full_text = summarize_contract backend other) := by
  constructor
  · rfl
  · intro other h
    simp only [summarize_contract, h]

/-- C8 witness: two inputs agreeing on their first 5000 characters produce the
same summary call. -/
theorem summarize_contract_spec_witness :
    List.take 5000 (List.replicate 6000 'a') = List.take 5000 (List.replicate 5001 'a') ∧
    summarize_contract (fun _ => GroqResult.failure []) (List.replicate 6000 'a') =
      summarize_contract (fun _ => GroqResult.failure []) (List.replicate 5001 'a') := by
  have h : List.take 5000 (List.replicate 6000 'a') = List.take 5000 (List.replicate 5001 'a') := by
    rw [List.take_replicate, List.take_replicate]
    norm_num
  exact ⟨h, (summarize_contract_spec (fun _ => GroqResult.failure []) _).2 _ h⟩
